import Mathlib

/-!
Verification of the IK seed-consistent angle normalizer of
`src/interface/ik_command_interactive_marker.cpp`
(`IKCommandInteractiveMarker::processInteractiveMarkerFeedback`, POSE_UPDATE
branch, lines 81-126) and of the marker-name helpers
`markerNameFromTipName` / `tipNameFromMarkerName` (lines 29-37).

Modelling conventions:
* double arithmetic is idealized as exact rational arithmetic (`ℚ`);
  the constant `M_PI` is taken as a parameter `pi : ℚ` of every
  definition, so the theorems hold for any admissible value of the
  constant (in particular for the rational that the IEEE double `M_PI`
  denotes).  `mpi` below is one concrete admissible value used in
  witnesses and counterexamples.
* the C cast `(int)x` on the nonnegative `fabs(...)` is `Int.floor`;
  `std::copysign(1.0, v)` is `-1` for `v < 0` and `1` otherwise.
* the per-event robot state restricted to the active group is a
  `List ℚ` of variable positions; `seed` is the copy taken before the
  IK query and, after a successful `setFromIK`, the state holds the raw
  IK solution, which the loop rewrites variable by variable.
* `std::string` is `List Char`; `std::string::rfind` searches for the
  highest start position of an occurrence, `npos` is `Option.none`.
-/

/-- Joint types of `moveit::core::JointModel::JointType`. -/
inductive JointType
  | UNKNOWN
  | REVOLUTE
  | PRISMATIC
  | PLANAR
  | FLOATING
  | FIXED
deriving DecidableEq, Repr

/-- One entry of `JointModel::getVariableBounds()`: a bounded flag and the
position interval. -/
structure VariableBounds where
  position_bounded : Bool
  min_position : ℚ
  max_position : ℚ
deriving DecidableEq, Repr

/-- The part of `moveit::core::JointModel` the handler reads: the joint type
and the bounds of its (single) variable, `getVariableBounds()[0]`. -/
structure JointModel where
  jtype : JointType
  bounds : VariableBounds
deriving DecidableEq, Repr

/-- Bounds check `robot_state->satisfiesBounds(j)` for the single variable of
the joint: the position lies in the declared interval. -/
def satisfiesBounds (b : VariableBounds) (v : ℚ) : Bool :=
  decide (b.min_position ≤ v ∧ v ≤ b.max_position)

/-- Eligibility test of lines 88-92: the variable is normalized iff its joint
type is REVOLUTE and its position is marked bounded; otherwise the loop
iteration is skipped by `continue`. -/
def eligible (j : JointModel) : Bool :=
  decide (j.jtype = JointType.REVOLUTE) && j.bounds.position_bounded

/-- Model of `std::copysign(1.0, v)`: `-1` when `v` is negative, `1`
otherwise (rationals have no negative zero). -/
def copysign1 (v : ℚ) : ℚ :=
  if v < 0 then -1 else 1

/-- Line 98: `int twopi_hops = (int)std::fabs(vdiff / (2.0 * M_PI));` with
`vdiff = seed[gvidx] - spos`; the truncating cast of a nonnegative value is
the floor. -/
def twopi_hops (pi sd sp : ℚ) : ℤ :=
  ⌊|sd - sp| / (2 * pi)⌋

/-- Line 105: `double npos = spos + (2.0 * M_PI) * twopi_hops *
std::copysign(1.0, vdiff);`. -/
def npos0 (pi sd sp : ℚ) : ℚ :=
  sp + 2 * pi * (twopi_hops pi sd sp : ℚ) * copysign1 (sd - sp)

/-- Lines 106-108: the candidate after the under-shoot correction — if
`fabs(npos - seed[gvidx]) > M_PI` one more `2π` hop is added in the same
direction. -/
def npos (pi sd sp : ℚ) : ℚ :=
  if |npos0 pi sd sp - sd| > pi then npos0 pi sd sp + 2 * pi * copysign1 (sd - sp)
  else npos0 pi sd sp

/-- One iteration of the loop of lines 83-123 for the variable with seed value
`sd` and solved (post-IK) value `sp`: ineligible variables are skipped
(`continue`), eligible ones are set to the candidate `npos` and reverted to
`spos` when the bounds check of line 119 fails. -/
def normalizeVariable (pi : ℚ) (j : JointModel) (sd sp : ℚ) : ℚ :=
  if eligible j then
    if satisfiesBounds j.bounds (npos pi sd sp) then npos pi sd sp else sp
  else sp

/-- The whole loop of lines 83-123 over the group variables: the seed entries
and the solved entries are processed pointwise; positions with no
corresponding loop iteration are left as they are. -/
def normalizeSolution (pi : ℚ) : List JointModel → List ℚ → List ℚ → List ℚ
  | j :: js, sd :: sds, sp :: sps =>
      normalizeVariable pi j sd sp :: normalizeSolution pi js sds sps
  | _, _, sps => sps

/-- The POSE_UPDATE branch of lines 81-126 after the seed copy: when
`setFromIK` succeeds the state holds the raw solution and the normalization
loop runs with the previously captured seed (the pre-event state); when it
fails nothing further happens and the joint state is left as it was. -/
def handlePoseUpdate (pi : ℚ) (joints : List JointModel) (state : List ℚ)
    (ik : Option (List ℚ)) : List ℚ :=
  match ik with
  | none => state
  | some sol => normalizeSolution pi joints state sol

/-- A concrete admissible value for the `M_PI` parameter, used in witnesses
and counterexamples. -/
def mpi : ℚ := 314159 / 100000

/-- A concrete bounded revolute joint with position interval `[-4, 4]`. -/
def jRev : JointModel :=
  ⟨JointType.REVOLUTE, ⟨true, -4, 4⟩⟩

/-- A concrete joint of unknown type. -/
def jUnk : JointModel :=
  ⟨JointType.UNKNOWN, ⟨false, 0, 0⟩⟩

lemma copysign1_of_neg {v : ℚ} (h : v < 0) : copysign1 v = -1 :=
  if_pos h

lemma copysign1_of_nonneg {v : ℚ} (h : 0 ≤ v) : copysign1 v = 1 :=
  if_neg (not_lt.mpr h)

/-- The floor-based hop count brackets the seed-solution distance:
`2π·hops ≤ |seed − spos| < 2π·(hops + 1)`. -/
lemma twopi_hops_bounds (pi sd sp : ℚ) (hpi : 0 < pi) :
    2 * pi * (twopi_hops pi sd sp : ℚ) ≤ |sd - sp| ∧
    |sd - sp| < 2 * pi * ((twopi_hops pi sd sp : ℚ) + 1) := by
  have h2 : (0:ℚ) < 2 * pi := by linarith
  have h1 : ((twopi_hops pi sd sp : ℚ)) ≤ |sd - sp| / (2 * pi) :=
    Int.floor_le _
  have h3 : |sd - sp| / (2 * pi) < (twopi_hops pi sd sp : ℚ) + 1 :=
    Int.lt_floor_add_one _
  constructor
  · have := (le_div_iff₀ h2).mp h1
    linarith
  · have := (div_lt_iff₀ h2).mp h3
    linarith

/-- The candidate after the under-shoot correction is within `π` of the
seed value (exact-arithmetic form of the nearest-representative bound). -/
lemma abs_npos_sub_seed_le (pi sd sp : ℚ) (hpi : 0 < pi) :
    |npos pi sd sp - sd| ≤ pi := by
  obtain ⟨hlo, hhi⟩ := twopi_hops_bounds pi sd sp hpi
  rw [npos, npos0]
  rcases lt_or_le (sd - sp) 0 with hv | hv
  · rw [copysign1_of_neg hv]
    rw [abs_of_neg hv] at hlo hhi
    split_ifs with hgt
    · rw [abs_of_nonneg (by linarith)] at hgt
      rw [abs_of_nonpos (by linarith)]
      linarith
    · exact le_of_not_lt hgt
  · rw [copysign1_of_nonneg hv]
    rw [abs_of_nonneg hv] at hlo hhi
    split_ifs with hgt
    · rw [abs_of_nonpos (by linarith)] at hgt
      rw [abs_of_nonneg (by linarith)]
      linarith
    · exact le_of_not_lt hgt

lemma normalizeSolution_nil (pi : ℚ) (sds sps : List ℚ) :
    normalizeSolution pi [] sds sps = sps := by
  cases sds <;> rfl

lemma normalizeSolution_nil_seed (pi : ℚ) (j : JointModel) (js : List JointModel)
    (sps : List ℚ) :
    normalizeSolution pi (j :: js) [] sps = sps :=
  rfl

lemma normalizeSolution_cons (pi : ℚ) (j : JointModel) (js : List JointModel)
    (sd sp : ℚ) (sds sps : List ℚ) :
    normalizeSolution pi (j :: js) (sd :: sds) (sp :: sps) =
      normalizeVariable pi j sd sp :: normalizeSolution pi js sds sps :=
  rfl

/-- Unfolding of the loop body when the variable is eligible. -/
lemma normalizeVariable_of_eligible (pi : ℚ) (j : JointModel) (sd sp : ℚ)
    (helig : eligible j = true) :
    normalizeVariable pi j sd sp =
      (if satisfiesBounds j.bounds (npos pi sd sp) then npos pi sd sp else sp) := by
  rw [normalizeVariable, if_pos helig]

/-- Unfolding of the loop body when the variable is ineligible. -/
lemma normalizeVariable_of_ineligible (pi : ℚ) (j : JointModel) (sd sp : ℚ)
    (helig : eligible j = false) :
    normalizeVariable pi j sd sp = sp := by
  rw [normalizeVariable, if_neg]
  simp [helig]

/-- A variable with seed equal to its solved value is left unchanged: the hop
count is zero, the candidate equals the value, and both bound-check branches
return it. -/
lemma normalizeVariable_self (pi : ℚ) (j : JointModel) (sd : ℚ) (hpi : 0 ≤ pi) :
    normalizeVariable pi j sd sd = sd := by
  have hn : npos pi sd sd = sd := by
    have h0 : npos0 pi sd sd = sd := by
      rw [npos0, twopi_hops]
      simp
    rw [npos, h0]
    rw [if_neg]
    simp only [sub_self, abs_zero, gt_iff_lt, not_lt]
    exact hpi
  rw [normalizeVariable, hn]
  split_ifs <;> rfl

/-- C3: for every variable, the candidate `npos` computed before the bounds
check differs from the solved value by an integer multiple of `2π`: the
adjustment only changes the representation of the rotation. -/
theorem npos_congruent_mod_two_pi (pi sd sp : ℚ) :
    ∃ k : ℤ, npos pi sd sp = sp + 2 * pi * (k : ℚ) := by
  rw [npos, npos0]
  rcases lt_or_le (sd - sp) 0 with hv | hv
  · rw [copysign1_of_neg hv]
    split_ifs with hgt
    · exact ⟨-(twopi_hops pi sd sp + 1), by push_cast; ring⟩
    · exact ⟨-(twopi_hops pi sd sp), by push_cast; ring⟩
  · rw [copysign1_of_nonneg hv]
    split_ifs with hgt
    · exact ⟨twopi_hops pi sd sp + 1, by push_cast; ring⟩
    · exact ⟨twopi_hops pi sd sp, by ring⟩

/-- C1: for every eligible variable, the final value either lies within `π`
of the seed value, or the bounds check on the adjusted candidate failed and
the original solved value is kept. -/
theorem nearest_representative (pi : ℚ) (j : JointModel) (sd sp : ℚ)
    (hpi : 0 < pi) (helig : eligible j = true) :
    |normalizeVariable pi j sd sp - sd| ≤ pi ∨
      (satisfiesBounds j.bounds (npos pi sd sp) = false ∧
        normalizeVariable pi j sd sp = sp) := by
  rw [normalizeVariable_of_eligible pi j sd sp helig]
  cases hb : satisfiesBounds j.bounds (npos pi sd sp) with
  | true =>
      left
      rw [if_pos rfl]
      exact abs_npos_sub_seed_le pi sd sp hpi
  | false =>
      right
      refine ⟨rfl, ?_⟩
      rw [if_neg]
      simp

/-- C7: normalizing a solution that equals the seed leaves every entry
unchanged. -/
theorem normalize_idempotent (pi : ℚ) (js : List JointModel) (s : List ℚ)
    (hpi : 0 ≤ pi) :
    normalizeSolution pi js s s = s := by
  induction js generalizing s with
  | nil => exact normalizeSolution_nil pi s s
  | cons j js ih =>
      cases s with
      | nil => rfl
      | cons a as =>
          rw [normalizeSolution_cons, normalizeVariable_self pi j a hpi, ih]

/-- C8: when the IK solver fails for a pose-update event, the normalization
loop never runs and the joint state is left completely unchanged. -/
theorem solver_failure_no_change (pi : ℚ) (joints : List JointModel)
    (state : List ℚ) :
    handlePoseUpdate pi joints state none = state :=
  rfl

/-- A concrete bounded revolute joint with the narrow interval `[-1, 1]`. -/
def jNarrow : JointModel :=
  ⟨JointType.REVOLUTE, ⟨true, -1, 1⟩⟩

/-- A concrete prismatic joint. -/
def jPris : JointModel :=
  ⟨JointType.PRISMATIC, ⟨true, 0, 1⟩⟩

/-- One loop iteration preserves membership in the declared bound interval:
the kept value is either the candidate that passed the explicit bounds check
or the solved value, assumed in bounds. -/
lemma normalizeVariable_bound_safe (pi : ℚ) (j : JointModel) (sd sp : ℚ)
    (hin : satisfiesBounds j.bounds sp = true) :
    satisfiesBounds j.bounds (normalizeVariable pi j sd sp) = true := by
  rw [normalizeVariable]
  split_ifs with h1 h2
  · exact h2
  · exact hin
  · exact hin

/-- Every entry of the processed solution is either the corresponding raw
entry or the result of one loop iteration on the aligned joint, seed and
solved values. -/
lemma normalizeSolution_getD (pi : ℚ) (js : List JointModel) (sds sps : List ℚ)
    (i : ℕ) :
    (normalizeSolution pi js sds sps).getD i 0 = sps.getD i 0 ∨
    (normalizeSolution pi js sds sps).getD i 0 =
      normalizeVariable pi (js.getD i jUnk) (sds.getD i 0) (sps.getD i 0) := by
  induction js generalizing sds sps i with
  | nil => left; rw [normalizeSolution_nil]
  | cons j js ih =>
      cases sds with
      | nil => left; rw [normalizeSolution_nil_seed]
      | cons sd sds =>
          cases sps with
          | nil => left; rfl
          | cons sp sps =>
              rw [normalizeSolution_cons]
              cases i with
              | zero => right; simp
              | succ n => simpa using ih sds sps n

/-- C4: if every raw solved value lies in its joint's declared bound interval,
then so does every value the normalizer finally leaves. -/
theorem bound_safety (pi : ℚ) (js : List JointModel) (sds sps : List ℚ)
    (hin : ∀ i, i < sps.length →
      satisfiesBounds ((js.getD i jUnk).bounds) (sps.getD i 0) = true) :
    ∀ i, i < sps.length →
      satisfiesBounds ((js.getD i jUnk).bounds)
        ((normalizeSolution pi js sds sps).getD i 0) = true := by
  intro i hi
  rcases normalizeSolution_getD pi js sds sps i with h | h
  · rw [h]
    exact hin i hi
  · rw [h]
    exact normalizeVariable_bound_safe pi _ _ _ (hin i hi)

/-- C5: when the adjusted candidate of an eligible variable violates the
joint's bounds, exactly that variable is reverted to its pre-normalization
solved value and the loop continues with the remaining variables. -/
theorem bound_violation_reverts (pi : ℚ) (j : JointModel)
    (js : List JointModel) (sd sp : ℚ) (sds sps : List ℚ)
    (helig : eligible j = true)
    (hviol : satisfiesBounds j.bounds (npos pi sd sp) = false) :
    normalizeSolution pi (j :: js) (sd :: sds) (sp :: sps) =
      sp :: normalizeSolution pi js sds sps := by
  rw [normalizeSolution_cons, normalizeVariable_of_eligible pi j sd sp helig,
    if_neg]
  simp [hviol]

/-- C6: a variable whose joint is prismatic, planar, floating or fixed, or
whose position is not marked bounded, keeps exactly its raw solved value. -/
theorem ineligible_passthrough (pi : ℚ) (j : JointModel) (sd sp : ℚ)
    (h : j.jtype = JointType.PRISMATIC ∨ j.jtype = JointType.PLANAR ∨
      j.jtype = JointType.FLOATING ∨ j.jtype = JointType.FIXED ∨
      j.bounds.position_bounded = false) :
    normalizeVariable pi j sd sp = sp := by
  apply normalizeVariable_of_ineligible
  rw [eligible]
  rcases h with h | h | h | h | h <;> simp [h]

/-- Hop count at seed `3`, solved value `-16/5`: the distance `31/5` is below
one full turn, so the floor gives `0`. -/
lemma twopi_hops_eval1 : twopi_hops mpi 3 (-16/5) = 0 := by
  rw [twopi_hops, show |(3:ℚ) - (-16/5)| = 31/5 by norm_num]
  norm_num [mpi]

lemma npos0_eval1 : npos0 mpi 3 (-16/5) = -16/5 := by
  rw [npos0, twopi_hops_eval1, copysign1_of_nonneg (by norm_num)]
  norm_num

/-- The under-shoot correction fires at seed `3`, solved value `-16/5`
(distance `31/5 > π`) and adds one full turn. -/
lemma npos_eval1 : npos mpi 3 (-16/5) = 154159/50000 := by
  rw [npos, npos0_eval1, copysign1_of_nonneg (show (0:ℚ) ≤ 3 - (-16/5) by norm_num),
    if_pos]
  · norm_num [mpi]
  · rw [gt_iff_lt, show |(-16/5 : ℚ) - 3| = 31/5 by norm_num]
    norm_num [mpi]

lemma normalizeVariable_eval1 :
    normalizeVariable mpi jRev 3 (-16/5) = 154159/50000 := by
  rw [normalizeVariable_of_eligible mpi jRev 3 (-16/5) rfl, npos_eval1, if_pos]
  simp only [satisfiesBounds, jRev, decide_eq_true_eq]
  norm_num

/-- C2 counterexample: an eligible variable with hop count `0` for which the
normalizer does not keep the solved value: steps 3-6 are not skipped, the
under-shoot correction still fires and changes the output. -/
theorem hops_zero_not_skipped_cex :
    eligible jRev = true ∧ twopi_hops mpi 3 (-16/5) = 0 ∧
      normalizeVariable mpi jRev 3 (-16/5) ≠ -16/5 := by
  refine ⟨rfl, twopi_hops_eval1, ?_⟩
  rw [normalizeVariable_eval1]
  norm_num

/-- C2 amended: when the hop count is zero the initial candidate equals the
solved value, but steps 3-6 still run; the solved value is guaranteed to be
kept only when additionally the seed-solution distance is at most `π` (then
the under-shoot correction does not fire and both bound-check branches
return the solved value). -/
theorem hops_zero_within_pi_kept (pi sd sp : ℚ) (j : JointModel)
    (hpi : 0 < pi) (hnear : |sd - sp| ≤ pi) :
    twopi_hops pi sd sp = 0 ∧ normalizeVariable pi j sd sp = sp := by
  have hhops : twopi_hops pi sd sp = 0 := by
    rw [twopi_hops, Int.floor_eq_zero_iff]
    refine ⟨div_nonneg (abs_nonneg _) (by linarith), ?_⟩
    rw [div_lt_one (by linarith)]
    linarith
  have hn0 : npos0 pi sd sp = sp := by
    rw [npos0, hhops]
    push_cast
    ring
  have hn : npos pi sd sp = sp := by
    rw [npos, hn0, if_neg]
    rw [gt_iff_lt, not_lt, abs_sub_comm]
    exact hnear
  refine ⟨hhops, ?_⟩
  rw [normalizeVariable, hn]
  split_ifs <;> rfl

theorem hops_zero_within_pi_kept_witness :
    twopi_hops mpi (1/2) (1/4) = 0 ∧ normalizeVariable mpi jRev (1/2) (1/4) = 1/4 :=
  hops_zero_within_pi_kept mpi (1/2) (1/4) jRev (by norm_num [mpi])
    (by rw [show |(1:ℚ)/2 - 1/4| = 1/4 by norm_num]; norm_num [mpi])

theorem nearest_representative_witness :
    |normalizeVariable mpi jRev 3 (-16/5) - 3| ≤ mpi ∨
      (satisfiesBounds jRev.bounds (npos mpi 3 (-16/5)) = false ∧
        normalizeVariable mpi jRev 3 (-16/5) = -16/5) :=
  nearest_representative mpi jRev 3 (-16/5) (by norm_num [mpi]) rfl

theorem normalize_idempotent_witness :
    normalizeSolution mpi [jRev] [3] [3] = [3] :=
  normalize_idempotent mpi [jRev] [3] (by norm_num [mpi])

theorem bound_safety_witness :
    satisfiesBounds (([jRev].getD 0 jUnk).bounds)
      ((normalizeSolution mpi [jRev] [3] [-16/5]).getD 0 0) = true :=
  bound_safety mpi [jRev] [3] [-16/5]
    (by
      intro i hi
      have hi0 : i = 0 := by simpa using hi
      subst hi0
      simp only [List.getD_cons_zero, satisfiesBounds, jRev, decide_eq_true_eq]
      norm_num)
    0 (by norm_num)

lemma satisfiesBounds_narrow_viol :
    satisfiesBounds jNarrow.bounds (npos mpi 3 (-16/5)) = false := by
  rw [npos_eval1]
  simp only [satisfiesBounds, jNarrow, decide_eq_false_iff_not, not_and, not_le]
  intro _
  norm_num

theorem bound_violation_reverts_witness :
    normalizeSolution mpi [jNarrow] [3] [-16/5] =
      -16/5 :: normalizeSolution mpi [] [] [] :=
  bound_violation_reverts mpi jNarrow [] 3 (-16/5) [] [] rfl
    satisfiesBounds_narrow_viol

theorem ineligible_passthrough_witness :
    normalizeVariable mpi jPris 3 7 = 7 :=
  ineligible_passthrough mpi jPris 3 7 (Or.inl rfl)

/-- C9 counterexample: on an input whose first variable has an unknown joint
type the handler performs no assertion or error return — it proceeds with
normalization and still rewrites the second (eligible) variable, so the
output differs from the raw solution. -/
theorem malformed_input_not_failfast_cex :
    jUnk.jtype = JointType.UNKNOWN ∧
      normalizeSolution mpi [jUnk, jRev] [0, 3] [0, -16/5] ≠ [0, -16/5] := by
  refine ⟨rfl, ?_⟩
  rw [normalizeSolution_cons, normalizeSolution_cons,
    normalizeVariable_of_ineligible mpi jUnk 0 0 rfl, normalizeVariable_eval1,
    normalizeSolution_nil]
  simp only [ne_eq, List.cons.injEq, true_and, and_true]
  norm_num

/-- C9 amended: the handler performs no malformed-input check — a variable
whose joint type is unknown is merely ineligible, is skipped with its solved
value kept, and normalization of the remaining variables proceeds. -/
theorem unknown_type_skipped (pi sd sp : ℚ) (j : JointModel)
    (js : List JointModel) (sds sps : List ℚ)
    (h : j.jtype = JointType.UNKNOWN) :
    normalizeSolution pi (j :: js) (sd :: sds) (sp :: sps) =
      sp :: normalizeSolution pi js sds sps := by
  rw [normalizeSolution_cons, normalizeVariable_of_ineligible]
  simp [eligible, h]

theorem unknown_type_skipped_witness :
    normalizeSolution mpi [jUnk] [0] [5] = 5 :: normalizeSolution mpi [] [] [] :=
  unknown_type_skipped mpi 0 5 jUnk [] [] [] rfl

/-- The literal `"_controls"` appended by `markerNameFromTipName` (line 31). -/
def controlsStr : List Char :=
  ['_', 'c', 'o', 'n', 't', 'r', 'o', 'l', 's']

/-- The literal `"_control"` searched for by `tipNameFromMarkerName`
(line 36). -/
def controlStr : List Char :=
  ['_', 'c', 'o', 'n', 't', 'r', 'o', 'l']

/-- Line 31: `return tip_name + "_controls";`. -/
def markerNameFromTipName (tip_name : List Char) : List Char :=
  tip_name ++ controlsStr

/-- An occurrence of `pat` starts at position `p` of `s`. -/
def occursAt (pat s : List Char) (p : ℕ) : Bool :=
  pat.isPrefixOf (s.drop p)

/-- Backward search of `std::string::rfind`: the highest start position
`≤ p` of an occurrence of `pat` in `s`, or none. -/
def rfindFrom (s pat : List Char) : ℕ → Option ℕ
  | 0 => if occursAt pat s 0 then some 0 else none
  | p + 1 => if occursAt pat s (p + 1) then some (p + 1) else rfindFrom s pat p

/-- Model of `marker_name.rfind("_control")`: search starts from the end of
the string; `none` models `std::string::npos`. -/
def rfind (s pat : List Char) : Option ℕ :=
  rfindFrom s pat s.length

/-- Line 36: `return marker_name.substr(0, marker_name.rfind("_control"));` —
`substr(0, npos)` returns the whole string. -/
def tipNameFromMarkerName (marker_name : List Char) : List Char :=
  match rfind marker_name controlStr with
  | none => marker_name
  | some p => marker_name.take p

lemma rfindFrom_succ_of_not (s pat : List Char) (p : ℕ)
    (h : occursAt pat s (p + 1) = false) :
    rfindFrom s pat (p + 1) = rfindFrom s pat p := by
  rw [rfindFrom, if_neg]
  simp [h]

lemma rfindFrom_self_of_occurs (s pat : List Char) (p : ℕ)
    (h : occursAt pat s p = true) :
    rfindFrom s pat p = some p := by
  cases p with
  | zero => rw [rfindFrom, if_pos h]
  | succ q => rw [rfindFrom, if_pos h]

/-- Occurrence positions at or past the length of the first part of an
append only see the second part. -/
lemma occursAt_append_suffix (t : List Char) (k : ℕ) :
    occursAt controlStr (t ++ controlsStr) (t.length + k) =
      occursAt controlStr controlsStr k := by
  rw [occursAt, occursAt, List.drop_append]

/-- C10: the marker-name round trip is the identity on every tip-link name —
the appended `"_controls"` always carries the last occurrence of
`"_control"`, so `rfind` truncates exactly what was appended, even when the
tip name itself contains `"_control"`. -/
theorem marker_name_roundtrip (t : List Char) :
    tipNameFromMarkerName (markerNameFromTipName t) = t := by
  have hsuffix : ∀ k, k ≤ 8 → occursAt controlStr controlsStr (k + 1) = false := by
    decide
  have h0 : occursAt controlStr (t ++ controlsStr) t.length = true := by
    have h := occursAt_append_suffix t 0
    rw [Nat.add_zero] at h
    rw [h]
    decide
  have step : ∀ m, m ≤ 9 →
      rfindFrom (t ++ controlsStr) controlStr (t.length + m) = some t.length := by
    intro m
    induction m with
    | zero =>
        intro _
        exact rfindFrom_self_of_occurs _ _ _ h0
    | succ n ih =>
        intro hle
        have hno : occursAt controlStr (t ++ controlsStr) ((t.length + n) + 1) = false := by
          have he : (t.length + n) + 1 = t.length + (n + 1) := rfl
          rw [he, occursAt_append_suffix]
          exact hsuffix n (by omega)
        rw [show t.length + (n + 1) = (t.length + n) + 1 from rfl,
          rfindFrom_succ_of_not _ _ _ hno]
        exact ih (by omega)
  have hlen : (t ++ controlsStr).length = t.length + 9 := by
    simp [controlsStr]
  have hfind : rfind (t ++ controlsStr) controlStr = some t.length := by
    rw [rfind, hlen]
    exact step 9 (by omega)
  rw [markerNameFromTipName, tipNameFromMarkerName, hfind]
  exact List.take_left t controlsStr
